import Mathlib

/-!
# A verification development for `cot` (src/main.go)

`cot` is a command-line portfolio tracker.  This file embeds the data model
(`Coin`, `Portfolio`) and the operations of `src/main.go` (`loadPortfolio`,
`savePortfolio`, `addCoin`, `listCoins`, `removeCoin`, `setAlarm`,
`checkAlarms`, `displayHelp`, `main`) as Lean functions and proves
properties of them.

Modelling conventions
* A Go slice is a `List`; a nil slice and an empty slice are both `[]`
  (they are indistinguishable to `len`, `range` and `append`).
* A Go `map[string]float64` is a `Finmap`, an unordered finite map, wrapped
  in `Option` so that the nil map (`none`) is distinguished from an empty one.
* A `float64` is its IEEE-754 binary64 bit pattern, split in three fields.
* A Go `string` is a `String`, a text of Unicode characters: byte strings that
  are not valid UTF-8 are outside the model.
* Text written to standard output is a list of `Output` events; a formatted
  print is an event that carries the arguments of the format string.
* Everything outside the program (file system, `encoding/json`, the clock,
  the price API, `strings.ToUpper`, `strconv.ParseFloat`) is a field of
  `World`; the file system is explicit state.
-/

/-! ## float64 -/

/-- An IEEE-754 binary64 value: sign bit, 11-bit biased exponent, 52-bit
mantissa. -/
structure Float64 where
  sign : Bool
  exponent : Nat
  mantissa : Nat
  exponent_lt : exponent < 2048
  mantissa_lt : mantissa < 2 ^ 52
deriving DecidableEq

namespace Float64

/-- The zero value of a Go `float64` (+0). -/
def zero : Float64 := ⟨false, 0, 0, by decide, by decide⟩

/-- NaN: all exponent bits set and a non-zero mantissa. -/
def isNaN (f : Float64) : Bool := f.exponent == 2047 && f.mantissa != 0

/-- Infinity: all exponent bits set and a zero mantissa. -/
def isInf (f : Float64) : Bool := f.exponent == 2047 && f.mantissa == 0

/-- An integer that orders the non-NaN values as their numeric values do:
the magnitude bits, negated for a negative sign (so +0 and -0 coincide). -/
def key (f : Float64) : Int :=
  let m : Int := (f.exponent * 2 ^ 52 + f.mantissa : Nat)
  if f.sign then -m else m

/-- Go's `a >= b` on `float64`: false when either side is NaN. -/
def ge (a b : Float64) : Bool := !a.isNaN && !b.isNaN && decide (b.key ≤ a.key)

/-- The rational value of a finite float: `mantissa * 2 ^ (-1074)` for a
subnormal, `(2 ^ 52 + mantissa) * 2 ^ (exponent - 1075)` for a normal one. -/
def toRat (f : Float64) : Option Rat :=
  if f.exponent = 2047 then none
  else
    let e : Nat := if f.exponent = 0 then 1 else f.exponent
    let m : Nat := if f.exponent = 0 then f.mantissa else 2 ^ 52 + f.mantissa
    let q : Rat := if 1075 ≤ e then (m : Rat) * 2 ^ (e - 1075) else (m : Rat) / 2 ^ (1075 - e)
    some (if f.sign then -q else q)

/-- The float 2000.0 . -/
def f2000 : Float64 := ⟨false, 1033, 976 * 2 ^ 42, by decide, by decide⟩

/-- The float 2500.0 . -/
def f2500 : Float64 := ⟨false, 1034, 113 * 2 ^ 43, by decide, by decide⟩

/-- The float 1500.0 . -/
def f1500 : Float64 := ⟨false, 1033, 119 * 2 ^ 44, by decide, by decide⟩

/-- A quiet NaN. -/
def nan : Float64 := ⟨false, 2047, 2 ^ 51, by decide, by decide⟩

end Float64

/-! ## Data model (main.go, lines 18-27) -/

/-- Go's `time.Time`, kept abstract as a count of clock ticks; the zero value is 0. -/
abbrev Time := Nat

/-- A Go `error` value, represented by its message. -/
abbrev GoError := String

/-- Go: `type Coin struct { Symbol string; Price float64 }`. -/
structure Coin where
  Symbol : String
  Price : Float64
deriving DecidableEq

/-- A non-nil `map[string]float64`. -/
abbrev AlarmMap := Finmap (fun _ : String => Float64)

/-- Go: `type Portfolio struct { Coins []Coin; Timestamp time.Time; Alarms map[string]float64 }`.
`Alarms = none` is the nil map. -/
structure Portfolio where
  Coins : List Coin
  Timestamp : Time
  Alarms : Option AlarmMap
deriving DecidableEq

namespace Portfolio

/-- The zero value `var portfolio Portfolio`: nil slice, zero time, nil map. -/
def zero : Portfolio := ⟨[], 0, none⟩

/-- Go's `v, ok := p.Alarms[s]`; reading a nil map finds nothing. -/
def alarmLookup (p : Portfolio) (s : String) : Option Float64 :=
  match p.Alarms with
  | none => none
  | some m => m.lookup s

/-- Go's `len(p.Alarms)`; a nil map has length 0. -/
def alarmCount (p : Portfolio) : Nat :=
  match p.Alarms with
  | none => 0
  | some m => m.keys.card

/-- The symbols of the coins, in order. -/
def symbols (p : Portfolio) : List String := p.Coins.map Coin.Symbol

/-- No two coins share a symbol. -/
def UniqueSymbols (p : Portfolio) : Prop := p.symbols.Nodup

instance (p : Portfolio) : Decidable p.UniqueSymbols :=
  inferInstanceAs (Decidable p.symbols.Nodup)

end Portfolio

/-! ## Standard output -/

/-- One print statement of the program. -/
inductive Output where
  /-- Go: `fmt.Println(text)` with a literal text. -/
  | println (text : String)
  /-- Go: `fmt.Println(text, err)`. -/
  | printlnError (text : String) (err : GoError)
  /-- Go: `fmt.Printf("Error fetching price for %s: %v\n", symbol, err)`. -/
  | fetchError (symbol : String) (err : GoError)
  /-- Go: `fmt.Printf("Alarm set for %s at $%.2f\n", symbol, price)`. -/
  | alarmSet (symbol : String) (price : Float64)
  /-- Go: `fmt.Printf("ALARM: %s has reached $%.2f (current: $%.2f)\n", symbol, alarmPrice, currentPrice)`. -/
  | alarm (symbol : String) (alarmPrice currentPrice : Float64)
  /-- A rendered table: header and rows. -/
  | table (header : List String) (rows : List (List String))
  /-- The table of `listCoins`: header `Symbol`, `Current Price` and one row
  `coin.Symbol, Sprintf("$%.2f", price)` per fetched price. -/
  | priceTable (rows : List (String × Float64))
deriving DecidableEq

/-! ## Portfolio operations (main.go, lines 76-139) -/

/-- The loop of `addCoin` (lines 77-82): `true` when some coin has the symbol,
in which case the function returns from inside the loop. -/
def addCoin.loop (symbol : String) : List Coin → Bool
  | [] => false
  | coin :: rest => if coin.Symbol = symbol then true else addCoin.loop symbol rest

/-- Go: `func addCoin(portfolio *Portfolio, symbol string)`: the portfolio after
the call and what was printed. -/
def addCoin (portfolio : Portfolio) (symbol : String) : Portfolio × List Output :=
  if addCoin.loop symbol portfolio.Coins then
    (portfolio, [.println "Coin already exists in portfolio."])
  else
    ({ portfolio with Coins := portfolio.Coins ++ [{ Symbol := symbol, Price := Float64.zero }] },
      [.println "Coin added successfully."])

/-- The loop of `removeCoin` (lines 110-116) at index `i`, with `rest` the
coins from index `i` on: on the first match the result is
`append(coins[:i], coins[i+1:]...)`; `none` when the loop runs to its end. -/
def removeCoin.loop (coins : List Coin) (symbol : String) : Nat → List Coin → Option (List Coin)
  | _, [] => none
  | i, coin :: rest =>
    if coin.Symbol = symbol then some (coins.take i ++ coins.drop (i + 1))
    else removeCoin.loop coins symbol (i + 1) rest

/-- Go: `func removeCoin(portfolio *Portfolio, symbol string)`. -/
def removeCoin (portfolio : Portfolio) (symbol : String) : Portfolio × List Output :=
  match removeCoin.loop portfolio.Coins symbol 0 portfolio.Coins with
  | some coins => ({ portfolio with Coins := coins }, [.println "Coin removed."])
  | none => (portfolio, [.println "Coin not found in the portfolio."])

/-- Go: `func setAlarm(portfolio *Portfolio, symbol string, price float64)`. -/
def setAlarm (portfolio : Portfolio) (symbol : String) (price : Float64) :
    Portfolio × List Output :=
  let alarms : AlarmMap :=
    match portfolio.Alarms with
    | none => ∅
    | some m => m
  ({ portfolio with Alarms := some (alarms.insert symbol price) }, [.alarmSet symbol price])

/-- The body of the loop of `checkAlarms` (lines 130-137) for one map entry. -/
def checkAlarms.body (getCoinPrice : String → Except GoError Float64)
    (symbol : String) (alarmPrice : Float64) : List Output :=
  match getCoinPrice symbol with
  | .error err => [.fetchError symbol err]
  | .ok currentPrice =>
    if currentPrice.ge alarmPrice then [.alarm symbol alarmPrice currentPrice] else []

/-- The loop of `checkAlarms` run over the map entries in the order `entries`. -/
def checkAlarms.loop (getCoinPrice : String → Except GoError Float64) :
    List (Sigma fun _ : String => Float64) → List Output
  | [] => []
  | ⟨symbol, alarmPrice⟩ :: rest =>
    checkAlarms.body getCoinPrice symbol alarmPrice ++ checkAlarms.loop getCoinPrice rest

/-- The entries of the alarm map as `range` sees them, up to order; a nil map
has none. -/
def Portfolio.alarmEntries (p : Portfolio) : Multiset (Sigma fun _ : String => Float64) :=
  match p.Alarms with
  | none => 0
  | some m => m.entries

/-- The list `order` is a possible iteration order of `range portfolio.Alarms`: Go leaves
the order of a map iteration unspecified, each entry is visited once. -/
def Portfolio.IterationOrder (p : Portfolio) (order : List (Sigma fun _ : String => Float64)) :
    Prop :=
  (order : Multiset (Sigma fun _ : String => Float64)) = p.alarmEntries

instance (p : Portfolio) (order : List (Sigma fun _ : String => Float64)) :
    Decidable (p.IterationOrder order) :=
  inferInstanceAs (Decidable ((order : Multiset (Sigma fun _ : String => Float64)) = p.alarmEntries))

/-- Go: `func checkAlarms(portfolio *Portfolio)`, for the iteration order `order`
of the alarm map. -/
def checkAlarms (getCoinPrice : String → Except GoError Float64)
    (order : List (Sigma fun _ : String => Float64)) : List Output :=
  checkAlarms.loop getCoinPrice order

/-- The loop of `listCoins` (lines 96-104): the rows appended to the table and
the error lines printed. -/
def listCoins.loop (getCoinPrice : String → Except GoError Float64) :
    List Coin → List (String × Float64) × List Output
  | [] => ([], [])
  | coin :: rest =>
    let r := listCoins.loop getCoinPrice rest
    match getCoinPrice coin.Symbol with
    | .error err => (r.1, .fetchError coin.Symbol err :: r.2)
    | .ok price => ((coin.Symbol, price) :: r.1, r.2)

/-- Go: `func listCoins(portfolio *Portfolio)`. -/
def listCoins (getCoinPrice : String → Except GoError Float64) (portfolio : Portfolio) :
    List Output :=
  if portfolio.Coins.length = 0 then [.println "No coins in portfolio."]
  else
    let r := listCoins.loop getCoinPrice portfolio.Coins
    r.2 ++ [.priceTable r.1]

/-- Go: `func displayHelp()`. -/
def displayHelp : List Output :=
  [.table ["Command", "Description"]
    [["add <symbol>", "Add a coin to your portfolio (e.g., BTCUSDT)."],
     ["list", "List coins in portfolio."],
     ["remove <symbol>", "Remove coin from portfolio."],
     ["alarm <symbol> <price>", "Set a price alarm for a coin."],
     ["save", "Save portfolio config file."],
     ["alarms", "Check all set alarms."],
     ["help", "Display this help."]]]

/-! ## The world outside the program -/

/-- The external collaborators of the program.  `FS` is the state of the file
system and `Bytes` the type of file contents. -/
structure World (FS Bytes : Type) where
  /-- Go: `ioutil.ReadFile(filename)`. -/
  readFile : FS → String → Except GoError Bytes
  /-- Go: `os.IsNotExist(err)`. -/
  isNotExist : GoError → Bool
  /-- Go: `ioutil.WriteFile(filename, data, 0644)`: the file system afterwards and
  the error returned (the file system may change even when the write fails). -/
  writeFile : FS → String → Bytes → FS × Option GoError
  /-- Go: `json.MarshalIndent(portfolio, "", "  ")`. -/
  marshalIndent : Portfolio → Except GoError Bytes
  /-- Go: `json.Unmarshal(data, &portfolio)`: the value of `portfolio` afterwards
  (it may be partly filled when decoding fails) and the error returned. -/
  unmarshal : Bytes → Portfolio → Portfolio × Option GoError
  /-- Go: `time.Now()`. -/
  now : Time
  /-- Go: `getCoinPrice(symbol)` (main.go, lines 29-47), an HTTP lookup. -/
  getCoinPrice : String → Except GoError Float64
  /-- The order in which `range portfolio.Alarms` visits the entries of the map
  in this run (Go leaves it unspecified). -/
  rangeAlarms : Portfolio → List (Sigma fun _ : String => Float64)
  /-- Go: `strings.ToUpper`. -/
  toUpper : String → String
  /-- Go: `strconv.ParseFloat(s, 64)`. -/
  parseFloat : String → Except GoError Float64

/-! ## Store (main.go, lines 49-74) -/

/-- Go: `func loadPortfolio(filename string) (Portfolio, error)`; the error is
`none` for `nil`. -/
def loadPortfolio {FS Bytes : Type} (w : World FS Bytes) (fs : FS) (filename : String) :
    Portfolio × Option GoError :=
  let portfolio := Portfolio.zero
  match w.readFile fs filename with
  | .error err =>
    if w.isNotExist err then (portfolio, none)
    else (portfolio, some err)
  | .ok file =>
    match w.unmarshal file portfolio with
    | (portfolio, some err) => (portfolio, some err)
    | (portfolio, none) => (portfolio, none)

/-- Go: `func savePortfolio(filename string, portfolio Portfolio) error`: the file
system afterwards and the error returned. -/
def savePortfolio {FS Bytes : Type} (w : World FS Bytes) (fs : FS) (filename : String)
    (portfolio : Portfolio) : FS × Option GoError :=
  let portfolio := { portfolio with Timestamp := w.now }
  match w.marshalIndent portfolio with
  | .error err => (fs, some err)
  | .ok file => w.writeFile fs filename file

/-! ## Entry point (main.go, lines 162-216) -/

/-- Go: `func main()`, for the argument vector `args` (`os.Args`, program name
included) and the file system `fs`: the file system at exit and what was
printed.  `args.getD i ""` is `os.Args[i]`; every use is behind the length
check of the source.  (Lean reserves the bare name `main`.) -/
def Cot.main {FS Bytes : Type} (w : World FS Bytes) (fs : FS) (args : List String) :
    FS × List Output :=
  match loadPortfolio w fs "portfolio.json" with
  | (_, some err) => (fs, [.printlnError "Error loading portfolio:" err])
  | (portfolio, none) =>
    if args.length < 2 then (fs, displayHelp)
    else
      let command := args.getD 1 ""
      match command with
      | "add" =>
        if args.length ≠ 3 then (fs, [.println "Usage: add <symbol>"])
        else
          let symbol := w.toUpper (args.getD 2 "")
          (fs, (addCoin portfolio symbol).2)
      | "list" => (fs, listCoins w.getCoinPrice portfolio)
      | "remove" =>
        if args.length ≠ 3 then (fs, [.println "Usage: remove <symbol>"])
        else
          let symbol := w.toUpper (args.getD 2 "")
          (fs, (removeCoin portfolio symbol).2)
      | "alarm" =>
        if args.length ≠ 4 then (fs, [.println "Usage: alarm <symbol> <price>"])
        else
          let symbol := w.toUpper (args.getD 2 "")
          match w.parseFloat (args.getD 3 "") with
          | .error _ => (fs, [.println "Invalid price. Please enter a valid number."])
          | .ok price => (fs, (setAlarm portfolio symbol price).2)
      | "save" =>
        match savePortfolio w fs "portfolio.json" portfolio with
        | (fs, some err) => (fs, [.printlnError "Error saving portfolio:" err])
        | (fs, none) => (fs, [.println "Portfolio saved successfully."])
      | "alarms" => (fs, checkAlarms w.getCoinPrice (w.rangeAlarms portfolio))
      | "help" => (fs, displayHelp)
      | _ => (fs, [.println "Unknown command. Type 'help' for a list of commands."])

/-! ## Sequences of operations -/

/-- One mutating operation of the portfolio. -/
inductive Op where
  | add (symbol : String)
  | remove (symbol : String)
  | alarm (symbol : String) (price : Float64)

/-- The portfolio after one operation. -/
def Op.apply (p : Portfolio) : Op → Portfolio
  | .add s => (addCoin p s).1
  | .remove s => (removeCoin p s).1
  | .alarm s x => (setAlarm p s x).1

/-- The portfolio after a finite sequence of operations, left to right. -/
def Op.run (p : Portfolio) (ops : List Op) : Portfolio := ops.foldl Op.apply p

/-! ## Example portfolios -/

/-- A portfolio holding the single coin BTCUSDT. -/
def onlyBTC : Portfolio := ⟨[⟨"BTCUSDT", Float64.zero⟩], 0, none⟩

/-- A portfolio holding BTCUSDT, ETHUSDT and BTCUSDT again. -/
def twiceBTC : Portfolio :=
  ⟨[⟨"BTCUSDT", Float64.zero⟩, ⟨"ETHUSDT", Float64.f2000⟩, ⟨"BTCUSDT", Float64.f2500⟩], 0, none⟩

/-- A portfolio with the single alarm ETHUSDT at 2000.0 . -/
def alarmETH : Portfolio := ⟨[], 0, some (Finmap.singleton "ETHUSDT" Float64.f2000)⟩

/-- A portfolio with alarms on ETHUSDT at 2000.0 and on BTCUSDT at 1500.0 . -/
def alarmTwo : Portfolio :=
  ⟨[], 0, some ((Finmap.singleton "ETHUSDT" Float64.f2000).insert "BTCUSDT" Float64.f1500)⟩

/-- A price source where ETHUSDT cannot be fetched and every other symbol is
at 2500.0 . -/
def failingETH (symbol : String) : Except GoError Float64 :=
  if symbol = "ETHUSDT" then .error "network" else .ok Float64.f2500

/-! ## A reference world

A concrete instance of `World`, used to evaluate the program on concrete
inputs: an in-memory file system, and an `encoding/json` that is exact on the
records it accepts and, as the library documents, rejects NaN and infinite
floats with an unsupported-value error. -/

/-- The contents of a file: the JSON text of a portfolio record, identified
with the record it denotes, or text that does not decode as one. -/
inductive FileContent where
  | record (p : Portfolio)
  | malformed
deriving DecidableEq

/-- An in-memory file system: a table from file names to contents, the most
recent binding first. -/
abbrev MemFS := List (String × FileContent)

/-- Read of a file of the in-memory file system. -/
def MemFS.read (fs : MemFS) (filename : String) : Except GoError FileContent :=
  match fs.lookup filename with
  | some data => .ok data
  | none => .error "no such file or directory"

/-- Write of a file of the in-memory file system; it never fails. -/
def MemFS.write (fs : MemFS) (filename : String) (data : FileContent) :
    MemFS × Option GoError :=
  ((filename, data) :: fs.filter (fun e => decide (e.1 ≠ filename)), none)

/-- A float that JSON can carry: neither NaN nor infinite. -/
def Float64.isFinite (f : Float64) : Bool := !f.isNaN && !f.isInf

/-- Every price and every threshold of the portfolio is finite. -/
def Portfolio.allFinite (p : Portfolio) : Bool :=
  p.Coins.all (fun c => c.Price.isFinite) &&
    (match p.Alarms with
     | none => true
     | some m => m.all (fun _ x => x.isFinite))

/-- The alarm entries in increasing order of their symbols. -/
def Portfolio.sortedAlarms (p : Portfolio) : List (Sigma fun _ : String => Float64) :=
  match p.Alarms with
  | none => []
  | some m => (m.keys.sort (fun a b => a ≤ b)).filterMap
      (fun k => (m.lookup k).map (fun x => (⟨k, x⟩ : Sigma fun _ : String => Float64)))

/-- The reference world. -/
def refWorld : World MemFS FileContent where
  readFile := MemFS.read
  isNotExist := fun err => err == "no such file or directory"
  writeFile := MemFS.write
  marshalIndent := fun p =>
    if p.allFinite then .ok (.record p) else .error "json: unsupported value"
  unmarshal := fun data p =>
    match data with
    | .record q => (q, none)
    | .malformed => (p, some "invalid character")
  now := 1
  getCoinPrice := fun _ => .error "network"
  rangeAlarms := Portfolio.sortedAlarms
  toUpper := fun s => ⟨s.data.map Char.toUpper⟩
  parseFloat := fun s =>
    if s = "2000.0" then .ok Float64.f2000
    else if s = "NaN" then .ok Float64.nan
    else .error "invalid syntax"

/-- A world whose file system denies every read. -/
def deniedWorld : World MemFS FileContent :=
  { refWorld with readFile := fun _ _ => .error "permission denied" }

/-- A portfolio with one coin whose price is NaN. -/
def nanPortfolio : Portfolio := ⟨[⟨"BTCUSDT", Float64.nan⟩], 0, none⟩

/-- A file system whose `portfolio.json` holds a portfolio with the coin
BTCUSDT. -/
def fsOnlyBTC : MemFS := [("portfolio.json", .record onlyBTC)]

/-! ## encoding/json

A model of `json.MarshalIndent` and `json.Unmarshal` of the Go standard library
for the type `Portfolio`, driven by the struct tags of main.go, lines 18-27:
`coins`, `timestamp`, `alarms`, and `symbol`, `price` for a coin.  A document
is kept as its tree of values: white space and indentation, the escapes of a
string literal and the digits of a number or time literal are not modelled. -/

/-- A JSON document. -/
inductive Json where
  | null
  | bool (b : Bool)
  /-- A number literal, with the `float64` it denotes: `strconv.ParseFloat`
  of the literal, which for the literal Go prints for a finite `x` is `x`. -/
  | number (x : Float64)
  /-- A string literal, with the text it denotes. -/
  | string (s : String)
  /-- A string literal that holds the RFC 3339 text of a time. -/
  | time (t : Time)
  | array (items : List Json)
  | object (members : List (String × Json))

namespace Json

/-- The encoding of a `float64`: NaN and the infinities are refused with an
`UnsupportedValueError`. -/
def encodeFloat (x : Float64) : Except GoError Json :=
  if x.isNaN then .error "json: unsupported value: NaN"
  else if x.isInf then
    .error (if x.sign then "json: unsupported value: -Inf" else "json: unsupported value: +Inf")
  else .ok (.number x)

/-- The encoding of a `Coin`: an object with the members `symbol` and `price`. -/
def encodeCoin (coin : Coin) : Except GoError Json :=
  match encodeFloat coin.Price with
  | .error err => .error err
  | .ok price => .ok (.object [("symbol", .string coin.Symbol), ("price", price)])

/-- The encodings of the coins, in order; the first error stops the encoder. -/
def encodeCoins : List Coin → Except GoError (List Json)
  | [] => .ok []
  | coin :: rest =>
    match encodeCoin coin with
    | .error err => .error err
    | .ok doc =>
      match encodeCoins rest with
      | .error err => .error err
      | .ok docs => .ok (doc :: docs)

/-- The members for the entries of the alarm map, in the given order; the first
error stops the encoder. -/
def encodeAlarms : List (Sigma fun _ : String => Float64) →
    Except GoError (List (String × Json))
  | [] => .ok []
  | ⟨symbol, price⟩ :: rest =>
    match encodeFloat price with
    | .error err => .error err
    | .ok doc =>
      match encodeAlarms rest with
      | .error err => .error err
      | .ok docs => .ok ((symbol, doc) :: docs)

/-- Go: `json.MarshalIndent(portfolio, "", "  ")`.  The members follow the order
of the struct fields; the nil map is written `null`; the keys of a map are
written in sorted order.  A slice without elements is written `null` when it
is the nil slice and `[]` when it is not: a `List` does not record which,
`nilCoins` does. -/
def marshalIndent (nilCoins : Bool) (portfolio : Portfolio) : Except GoError Json :=
  let coins : Except GoError Json :=
    match portfolio.Coins with
    | [] => .ok (if nilCoins then .null else .array [])
    | coin :: rest =>
      match encodeCoins (coin :: rest) with
      | .error err => .error err
      | .ok docs => .ok (.array docs)
  match coins with
  | .error err => .error err
  | .ok coins =>
    let alarms : Except GoError Json :=
      match portfolio.Alarms with
      | none => .ok .null
      | some _ =>
        match encodeAlarms portfolio.sortedAlarms with
        | .error err => .error err
        | .ok members => .ok (.object members)
    match alarms with
    | .error err => .error err
    | .ok alarms =>
      .ok (.object [("coins", coins), ("timestamp", .time portfolio.Timestamp),
        ("alarms", alarms)])

/-- The name under which the decoder looks up the struct field for a member
name: field names are matched without regard to ASCII case.  `none` for a
name with a character outside ASCII, which this model does not cover. -/
def foldName (key : String) : Option String :=
  if key.data.all (fun c => decide (c.toNat < 128)) then some ⟨key.data.map Char.toLower⟩
  else none

/-- The decoding of the members of an object into a `Coin`, in order, with
`seen` the fields already set.  A member that names no field is skipped;
`null` leaves the field as it is.  `none` when the document is outside the
model: a value of another type, or a field named twice. -/
def decodeCoinMembers : List (String × Json) → List String → Coin → Option Coin
  | [], _, coin => some coin
  | (key, value) :: rest, seen, coin =>
    match foldName key with
    | none => none
    | some name =>
      if name = "symbol" then
        if name ∈ seen then none
        else
          match value with
          | .string s => decodeCoinMembers rest (name :: seen) { coin with Symbol := s }
          | .null => decodeCoinMembers rest (name :: seen) coin
          | _ => none
      else if name = "price" then
        if name ∈ seen then none
        else
          match value with
          | .number x =>
            if x.isFinite then decodeCoinMembers rest (name :: seen) { coin with Price := x }
            else none
          | .null => decodeCoinMembers rest (name :: seen) coin
          | _ => none
      else decodeCoinMembers rest seen coin

/-- The decoding of the elements of an array into a fresh `[]Coin`: each
element is decoded into a zero `Coin`. -/
def decodeCoins : List Json → Option (List Coin)
  | [] => some []
  | doc :: rest =>
    let coin : Option Coin :=
      match doc with
      | .object members => decodeCoinMembers members [] ⟨"", Float64.zero⟩
      | .null => some ⟨"", Float64.zero⟩
      | _ => none
    match coin, decodeCoins rest with
    | some coin, some coins => some (coin :: coins)
    | _, _ => none

/-- The decoding of the members of an object into a map, in order:
`alarms[key] = value` for each member, a later member replacing an earlier one
with the same key; `null` stores the zero value. -/
def decodeAlarms : List (String × Json) → AlarmMap → Option AlarmMap
  | [], alarms => some alarms
  | (key, value) :: rest, alarms =>
    match value with
    | .number x => if x.isFinite then decodeAlarms rest (alarms.insert key x) else none
    | .null => decodeAlarms rest (alarms.insert key Float64.zero)
    | _ => none

/-- The decoding of the members of an object into a zero `Portfolio`, in order,
with `seen` the fields already set.  A member that names no field is
skipped; `null` sets the slice or the map to nil and leaves the time as it
is.  `none` when the document is outside the model. -/
def decodePortfolioMembers : List (String × Json) → List String → Portfolio → Option Portfolio
  | [], _, portfolio => some portfolio
  | (key, value) :: rest, seen, portfolio =>
    match foldName key with
    | none => none
    | some name =>
      if name = "coins" then
        if name ∈ seen then none
        else
          match value with
          | .array items =>
            match decodeCoins items with
            | some coins =>
              decodePortfolioMembers rest (name :: seen) { portfolio with Coins := coins }
            | none => none
          | .null => decodePortfolioMembers rest (name :: seen) { portfolio with Coins := [] }
          | _ => none
      else if name = "timestamp" then
        if name ∈ seen then none
        else
          match value with
          | .time t => decodePortfolioMembers rest (name :: seen) { portfolio with Timestamp := t }
          | .null => decodePortfolioMembers rest (name :: seen) portfolio
          | _ => none
      else if name = "alarms" then
        if name ∈ seen then none
        else
          match value with
          | .object members =>
            match decodeAlarms members ∅ with
            | some alarms =>
              decodePortfolioMembers rest (name :: seen) { portfolio with Alarms := some alarms }
            | none => none
          | .null => decodePortfolioMembers rest (name :: seen) { portfolio with Alarms := none }
          | _ => none
      else decodePortfolioMembers rest seen portfolio

/-- Go: `json.Unmarshal(data, &portfolio)` for a zero `portfolio` and a document
the model covers: the value of `portfolio` afterwards, the error being nil.
`none` when the document is outside the model. -/
def unmarshal : Json → Option Portfolio
  | .object members => decodePortfolioMembers members [] Portfolio.zero
  | .null => some Portfolio.zero
  | _ => none

end Json

/-- The world `w` with `encoding/json` in the place of its codec: the encoder is
`Json.marshalIndent`, the decoder is `Json.unmarshal` where the model covers
the call and the decoder of `w` elsewhere.  `nilCoins` tells whether a coin
slice without elements is the nil slice. -/
def World.withJson {FS : Type} (w : World FS Json) (nilCoins : Bool) : World FS Json :=
  { w with
    marshalIndent := Json.marshalIndent nilCoins
    unmarshal := fun data portfolio =>
      if portfolio = Portfolio.zero then
        match Json.unmarshal data with
        | some decoded => (decoded, none)
        | none => w.unmarshal data portfolio
      else w.unmarshal data portfolio }

/-- An in-memory file system of JSON documents, the most recent binding first. -/
abbrev JsonFS := List (String × Json)

/-- Read of a file of the in-memory file system. -/
def JsonFS.read (fs : JsonFS) (filename : String) : Except GoError Json :=
  match fs.lookup filename with
  | some data => .ok data
  | none => .error "no such file or directory"

/-- Write of a file of the in-memory file system; it never fails. -/
def JsonFS.write (fs : JsonFS) (filename : String) (data : Json) : JsonFS × Option GoError :=
  ((filename, data) :: fs.filter (fun e => decide (e.1 ≠ filename)), none)

/-- A world over the in-memory file system of JSON documents whose own decoder
refuses every document. -/
def jsonBase : World JsonFS Json where
  readFile := JsonFS.read
  isNotExist := refWorld.isNotExist
  writeFile := JsonFS.write
  marshalIndent := Json.marshalIndent true
  unmarshal := fun _ portfolio => (portfolio, some "json: document outside the model")
  now := refWorld.now
  getCoinPrice := refWorld.getCoinPrice
  rangeAlarms := refWorld.rangeAlarms
  toUpper := refWorld.toUpper
  parseFloat := refWorld.parseFloat

/-- The reference world with JSON documents as file contents and
`encoding/json` as its codec. -/
def jsonWorld : World JsonFS Json := jsonBase.withJson true

/-- A portfolio with two coins and two alarms. -/
def coinsAndAlarms : Portfolio :=
  ⟨[⟨"BTCUSDT", Float64.zero⟩, ⟨"ETHUSDT", Float64.f2500⟩], 0,
    some ((Finmap.singleton "ETHUSDT" Float64.f2000).insert "BTCUSDT" Float64.f1500)⟩

/-! ## The model of float64 -/

theorem Float64.f2000_value : Float64.f2000.toRat = some 2000 := by
  simp [Float64.toRat, Float64.f2000]; norm_num

theorem Float64.f2500_value : Float64.f2500.toRat = some 2500 := by
  simp [Float64.toRat, Float64.f2500]; norm_num

theorem Float64.f1500_value : Float64.f1500.toRat = some 1500 := by
  simp [Float64.toRat, Float64.f1500]; norm_num

theorem Float64.zero_value : Float64.zero.toRat = some 0 := by
  simp [Float64.toRat, Float64.zero]

theorem Float64.nan_isNaN : Float64.nan.isNaN = true := by decide

/-- A comparison with NaN is false on either side. -/
theorem Float64.ge_nan (a b : Float64) (h : a.isNaN = true ∨ b.isNaN = true) :
    a.ge b = false := by
  rcases h with h | h <;> simp [Float64.ge, h]

/-! ## The reference world -/

/-- The iteration order of the reference world visits each entry of the alarm
map once. -/
theorem Portfolio.sortedAlarms_iterationOrder (p : Portfolio) :
    p.IterationOrder p.sortedAlarms := by
  unfold Portfolio.IterationOrder Portfolio.sortedAlarms Portfolio.alarmEntries
  cases p.Alarms with
  | none => rfl
  | some m =>
    simp only
    have hnd : (m.entries).Nodup := by
      induction m using Finmap.induction_on with
      | H a => exact a.nodupKeys.nodup
    rw [Multiset.Nodup.ext _ hnd]
    · rintro ⟨k, x⟩
      rw [← Finmap.mem_lookup_iff]
      simp only [Multiset.mem_coe, List.mem_filterMap, Finset.mem_sort, Option.map_eq_some',
        Option.mem_def]
      constructor
      · rintro ⟨k', _, x', hx', heq⟩
        cases heq
        exact hx'
      · intro h
        exact ⟨k, Finmap.mem_keys.2 (Finmap.mem_of_lookup_eq_some h), x, h, rfl⟩
    · rw [Multiset.coe_nodup]
      refine List.Nodup.filterMap ?_ (Finset.sort_nodup _ _)
      intro a a' b hb hb'
      simp only [Option.mem_def, Option.map_eq_some'] at hb hb'
      obtain ⟨x, _, rfl⟩ := hb
      obtain ⟨x', _, h⟩ := hb'
      exact (congrArg Sigma.fst h).symm

/-! ## Lemmas on the loops -/

theorem addCoin.loop_eq_true (symbol : String) (coins : List Coin) :
    addCoin.loop symbol coins = true ↔ ∃ c ∈ coins, c.Symbol = symbol := by
  induction coins with
  | nil => simp [addCoin.loop]
  | cons coin rest ih =>
    by_cases h : coin.Symbol = symbol
    · simp [addCoin.loop, h]
    · simp [addCoin.loop, h, ih]

theorem addCoin.loop_eq_false (symbol : String) (coins : List Coin) :
    addCoin.loop symbol coins = false ↔ ∀ c ∈ coins, c.Symbol ≠ symbol := by
  rw [← Bool.not_eq_true, addCoin.loop_eq_true]
  push_neg
  rfl

/-- The loop of `removeCoin`, started at the end of a prefix `pre` without a
match, erases the first match of `rest`. -/
theorem removeCoin.loop_spec (symbol : String) (rest : List Coin) :
    ∀ pre : List Coin,
      removeCoin.loop (pre ++ rest) symbol pre.length rest =
        if ∃ c ∈ rest, c.Symbol = symbol then
          some (pre ++ rest.eraseP (fun c => decide (c.Symbol = symbol)))
        else none := by
  induction rest with
  | nil => intro pre; simp [removeCoin.loop]
  | cons coin rest ih =>
    intro pre
    by_cases h : coin.Symbol = symbol
    · simp [removeCoin.loop, h, List.take_append_eq_append_take, List.drop_append_eq_append_drop]
    · have h2 := ih (pre ++ [coin])
      simp only [List.append_assoc, List.singleton_append, List.length_append,
        List.length_singleton] at h2
      simp only [removeCoin.loop, h, if_false, h2]
      simp [h, List.eraseP_cons]

theorem removeCoin.loop_zero (symbol : String) (coins : List Coin) :
    removeCoin.loop coins symbol 0 coins =
      if ∃ c ∈ coins, c.Symbol = symbol then
        some (coins.eraseP (fun c => decide (c.Symbol = symbol)))
      else none := by
  simpa using removeCoin.loop_spec symbol coins []

/-! ## addCoin -/

/-- C1: when some coin of the portfolio has exactly the symbol, `addCoin`
returns the portfolio unchanged (same coins, same length, same order) and
prints "Coin already exists in portfolio." and not the added message; and
when no coin has the symbol, a second `addCoin` with the same symbol reports
"already exists" and leaves exactly one coin with that symbol. -/
theorem addCoin_existing_is_noop (p : Portfolio) (s : String) :
    ((∃ c ∈ p.Coins, c.Symbol = s) →
      addCoin p s = (p, [.println "Coin already exists in portfolio."]) ∧
      (addCoin p s).1.Coins = p.Coins ∧
      (addCoin p s).1.Coins.length = p.Coins.length ∧
      (addCoin p s).2 ≠ [.println "Coin added successfully."]) ∧
    ((∀ c ∈ p.Coins, c.Symbol ≠ s) →
      (addCoin (addCoin p s).1 s).2 = [.println "Coin already exists in portfolio."] ∧
      (addCoin (addCoin p s).1 s).1 = (addCoin p s).1 ∧
      (addCoin (addCoin p s).1 s).1.Coins.countP (fun c => decide (c.Symbol = s)) = 1) := by
  constructor
  · intro h
    have hl : addCoin.loop s p.Coins = true := (addCoin.loop_eq_true s p.Coins).2 h
    simp [addCoin, hl]
  · intro h
    have hl : addCoin.loop s p.Coins = false := (addCoin.loop_eq_false s p.Coins).2 h
    have h1 : (addCoin p s).1.Coins = p.Coins ++ [⟨s, Float64.zero⟩] := by simp [addCoin, hl]
    have hl2 : addCoin.loop s (addCoin p s).1.Coins = true := by
      rw [addCoin.loop_eq_true, h1]
      exact ⟨⟨s, Float64.zero⟩, by simp, rfl⟩
    have h2 : addCoin (addCoin p s).1 s =
        ((addCoin p s).1, [.println "Coin already exists in portfolio."]) := by
      rw [addCoin, if_pos hl2]
    refine ⟨by rw [h2], by rw [h2], ?_⟩
    rw [h2, h1, List.countP_append]
    have h0 : p.Coins.countP (fun c => decide (c.Symbol = s)) = 0 := by
      rw [List.countP_eq_zero]
      intro c hc
      simpa using h c hc
    simp [h0]

/-- C1 at concrete inputs: BTCUSDT added to a portfolio that holds it, and
BTCUSDT added twice to the empty portfolio. -/
theorem addCoin_existing_is_noop_witness :
    (addCoin onlyBTC "BTCUSDT" = (onlyBTC, [.println "Coin already exists in portfolio."]) ∧
      (addCoin onlyBTC "BTCUSDT").1.Coins = onlyBTC.Coins ∧
      (addCoin onlyBTC "BTCUSDT").1.Coins.length = onlyBTC.Coins.length ∧
      (addCoin onlyBTC "BTCUSDT").2 ≠ [.println "Coin added successfully."]) ∧
    ((addCoin (addCoin Portfolio.zero "BTCUSDT").1 "BTCUSDT").2 =
        [.println "Coin already exists in portfolio."] ∧
      (addCoin (addCoin Portfolio.zero "BTCUSDT").1 "BTCUSDT").1 =
        (addCoin Portfolio.zero "BTCUSDT").1 ∧
      (addCoin (addCoin Portfolio.zero "BTCUSDT").1 "BTCUSDT").1.Coins.countP
        (fun c => decide (c.Symbol = "BTCUSDT")) = 1) :=
  ⟨(addCoin_existing_is_noop onlyBTC "BTCUSDT").1 ⟨⟨"BTCUSDT", Float64.zero⟩, by decide, rfl⟩,
   (addCoin_existing_is_noop Portfolio.zero "BTCUSDT").2 (by decide)⟩

/-- C2: when no coin of the portfolio has the symbol, `addCoin` yields the
coins followed by one new coin with that symbol and price zero: the length
grows by one, the new coin is last, every earlier index keeps its coin, the
other fields are untouched and "Coin added successfully." is printed. -/
theorem addCoin_new_appends (p : Portfolio) (s : String)
    (h : ∀ c ∈ p.Coins, c.Symbol ≠ s) :
    (addCoin p s).1.Coins = p.Coins ++ [{ Symbol := s, Price := Float64.zero }] ∧
    (addCoin p s).1.Coins.length = p.Coins.length + 1 ∧
    (addCoin p s).1.Coins.getLast? = some { Symbol := s, Price := Float64.zero } ∧
    (∀ i, i < p.Coins.length → (addCoin p s).1.Coins[i]? = p.Coins[i]?) ∧
    (addCoin p s).1.Timestamp = p.Timestamp ∧
    (addCoin p s).1.Alarms = p.Alarms ∧
    (addCoin p s).2 = [.println "Coin added successfully."] := by
  have hl : addCoin.loop s p.Coins = false := (addCoin.loop_eq_false s p.Coins).2 h
  have h1 : addCoin p s =
      ({ p with Coins := p.Coins ++ [{ Symbol := s, Price := Float64.zero }] },
        [.println "Coin added successfully."]) := by
    simp [addCoin, hl]
  rw [h1]
  refine ⟨rfl, by simp, by simp, ?_, rfl, rfl, rfl⟩
  intro i hi
  simp [List.getElem?_append_left hi]

/-- C2 at a concrete input: ETHUSDT added to a portfolio holding BTCUSDT. -/
theorem addCoin_new_appends_witness :
    (addCoin onlyBTC "ETHUSDT").1.Coins =
      [⟨"BTCUSDT", Float64.zero⟩, ⟨"ETHUSDT", Float64.zero⟩] ∧
    (addCoin onlyBTC "ETHUSDT").2 = [.println "Coin added successfully."] :=
  have h := addCoin_new_appends onlyBTC "ETHUSDT" (by decide)
  ⟨h.1, h.2.2.2.2.2.2⟩

/-! ## removeCoin -/

/-- C3: when the symbol occurs in the portfolio, `removeCoin` deletes exactly
the first coin with that symbol: the coins split as `before ++ c :: after`
with `c` the first match and the result is `before ++ after`; the length
shrinks by one, the result is a sublist of the old coins (relative order
kept), the other fields are untouched, "Coin removed." is printed, and when
the symbols were pairwise distinct no coin with the symbol remains. -/
theorem removeCoin_present_removes_first (p : Portfolio) (s : String)
    (h : ∃ c ∈ p.Coins, c.Symbol = s) :
    (∃ before c after, p.Coins = before ++ c :: after ∧ c.Symbol = s ∧
      (∀ x ∈ before, x.Symbol ≠ s) ∧ (removeCoin p s).1.Coins = before ++ after) ∧
    (removeCoin p s).1.Coins.length + 1 = p.Coins.length ∧
    (removeCoin p s).1.Coins.Sublist p.Coins ∧
    (removeCoin p s).1.Timestamp = p.Timestamp ∧
    (removeCoin p s).1.Alarms = p.Alarms ∧
    (removeCoin p s).2 = [.println "Coin removed."] ∧
    (p.UniqueSymbols → ∀ x ∈ (removeCoin p s).1.Coins, x.Symbol ≠ s) := by
  have h1 : removeCoin p s =
      ({ p with Coins := p.Coins.eraseP (fun c => decide (c.Symbol = s)) },
        [.println "Coin removed."]) := by
    simp only [removeCoin, removeCoin.loop_zero, if_pos h]
  obtain ⟨c0, hc0, hs0⟩ := h
  obtain ⟨c, before, after, hb, hc, hsplit, herase⟩ :=
    @List.exists_of_eraseP Coin (fun c => decide (c.Symbol = s)) p.Coins c0 hc0
      (by simpa using hs0)
  have hcs : c.Symbol = s := by simpa using hc
  rw [h1]
  refine ⟨⟨before, c, after, hsplit, hcs, ?_, herase⟩, ?_, ?_, rfl, rfl, rfl, ?_⟩
  · intro x hx
    simpa using hb x hx
  · show (p.Coins.eraseP _).length + 1 = _
    rw [herase, hsplit]
    simp only [List.length_append, List.length_cons]
    omega
  · exact List.eraseP_sublist _
  · intro hu x hx
    have hx2 : x ∈ before ++ after := by
      have : x ∈ p.Coins.eraseP (fun c => decide (c.Symbol = s)) := hx
      rwa [herase] at this
    have hu2 : (before.map Coin.Symbol ++ c.Symbol :: after.map Coin.Symbol).Nodup := by
      have : (p.Coins.map Coin.Symbol).Nodup := hu
      rwa [hsplit, List.map_append, List.map_cons] at this
    intro hxs
    rcases List.mem_append.1 hx2 with hxb | hxa
    · exact (by simpa using hb x hxb : ¬ x.Symbol = s) hxs
    · have hnd := (List.nodup_append.1 hu2).2.1
      have hnot : c.Symbol ∉ after.map Coin.Symbol := (List.nodup_cons.1 hnd).1
      apply hnot
      rw [hcs, ← hxs]
      exact List.mem_map_of_mem _ hxa

/-- C3 at concrete inputs: removing BTCUSDT from a portfolio that holds it
twice deletes the first one only. -/
theorem removeCoin_present_removes_first_witness :
    (removeCoin twiceBTC "BTCUSDT").1.Coins.length + 1 = twiceBTC.Coins.length ∧
    (removeCoin twiceBTC "BTCUSDT").1.Coins =
      [⟨"ETHUSDT", Float64.f2000⟩, ⟨"BTCUSDT", Float64.f2500⟩] ∧
    (removeCoin twiceBTC "BTCUSDT").2 = [.println "Coin removed."] :=
  have h := removeCoin_present_removes_first twiceBTC "BTCUSDT"
    ⟨⟨"BTCUSDT", Float64.zero⟩, by decide, rfl⟩
  ⟨h.2.1, by decide, h.2.2.2.2.2.1⟩

/-- C4: when no coin of the portfolio has the symbol, `removeCoin` returns the
portfolio unchanged and prints "Coin not found in the portfolio."; and that
message is printed only when no coin has the symbol. -/
theorem removeCoin_absent_is_noop (p : Portfolio) (s : String) :
    ((∀ c ∈ p.Coins, c.Symbol ≠ s) →
      removeCoin p s = (p, [.println "Coin not found in the portfolio."])) ∧
    ((removeCoin p s).2 = [.println "Coin not found in the portfolio."] →
      ∀ c ∈ p.Coins, c.Symbol ≠ s) := by
  constructor
  · intro h
    have hn : ¬ ∃ c ∈ p.Coins, c.Symbol = s := by
      rintro ⟨c, hc, hs⟩
      exact h c hc hs
    simp only [removeCoin, removeCoin.loop_zero, if_neg hn]
  · intro hout c hc hs
    have hex : ∃ c ∈ p.Coins, c.Symbol = s := ⟨c, hc, hs⟩
    simp only [removeCoin, removeCoin.loop_zero, if_pos hex] at hout
    exact absurd hout (by decide)

/-- C4 at a concrete input: DOGEUSDT removed from a portfolio holding only
BTCUSDT. -/
theorem removeCoin_absent_is_noop_witness :
    removeCoin onlyBTC "DOGEUSDT" = (onlyBTC, [.println "Coin not found in the portfolio."]) ∧
    ((removeCoin onlyBTC "DOGEUSDT").2 = [.println "Coin not found in the portfolio."] →
      ∀ c ∈ onlyBTC.Coins, c.Symbol ≠ "DOGEUSDT") :=
  ⟨(removeCoin_absent_is_noop onlyBTC "DOGEUSDT").1 (by decide),
   (removeCoin_absent_is_noop onlyBTC "DOGEUSDT").2⟩

/-! ## Symbol uniqueness -/

theorem addCoin_unique (p : Portfolio) (s : String) (h : p.UniqueSymbols) :
    (addCoin p s).1.UniqueSymbols := by
  cases hl : addCoin.loop s p.Coins with
  | true => simpa [addCoin, hl] using h
  | false =>
    have hn : ∀ c ∈ p.Coins, c.Symbol ≠ s := (addCoin.loop_eq_false s p.Coins).1 hl
    have h1 : (addCoin p s).1.symbols = p.symbols ++ [s] := by
      simp [addCoin, hl, Portfolio.symbols]
    unfold Portfolio.UniqueSymbols
    rw [h1]
    refine List.Nodup.append h (List.nodup_singleton s) ?_
    intro a ha hs
    obtain ⟨c, hc, rfl⟩ := List.mem_map.1 ha
    exact hn c hc (List.mem_singleton.1 hs)

theorem removeCoin_sublist (p : Portfolio) (s : String) :
    (removeCoin p s).1.Coins.Sublist p.Coins := by
  by_cases h : ∃ c ∈ p.Coins, c.Symbol = s
  · simp only [removeCoin, removeCoin.loop_zero, if_pos h]
    exact List.eraseP_sublist _
  · simp only [removeCoin, removeCoin.loop_zero, if_neg h]
    exact List.Sublist.refl _

theorem removeCoin_unique (p : Portfolio) (s : String) (h : p.UniqueSymbols) :
    (removeCoin p s).1.UniqueSymbols :=
  List.Nodup.sublist ((removeCoin_sublist p s).map Coin.Symbol) h

theorem setAlarm_coins (p : Portfolio) (s : String) (x : Float64) :
    (setAlarm p s x).1.Coins = p.Coins := rfl

theorem Op.apply_unique (p : Portfolio) (op : Op) (h : p.UniqueSymbols) :
    (Op.apply p op).UniqueSymbols := by
  cases op with
  | add s => exact addCoin_unique p s h
  | remove s => exact removeCoin_unique p s h
  | alarm s x => exact h

theorem Op.run_unique (ops : List Op) :
    ∀ p : Portfolio, p.UniqueSymbols → (Op.run p ops).UniqueSymbols := by
  induction ops with
  | nil => intro p h; exact h
  | cons op rest ih => intro p h; exact ih _ (Op.apply_unique p op h)

/-- C5: symbol uniqueness is an invariant: if no two coins of the portfolio
share a symbol, the same holds after `addCoin`, after `removeCoin` and after
`setAlarm`, hence after any finite sequence of these operations; and every
portfolio reached from the empty portfolio by such a sequence has pairwise
distinct symbols. -/
theorem unique_symbols_invariant (p : Portfolio) (s : String) (x : Float64) (ops : List Op) :
    (p.UniqueSymbols →
      (addCoin p s).1.UniqueSymbols ∧ (removeCoin p s).1.UniqueSymbols ∧
      (setAlarm p s x).1.UniqueSymbols ∧ (Op.run p ops).UniqueSymbols) ∧
    (Op.run Portfolio.zero ops).UniqueSymbols :=
  ⟨fun h => ⟨addCoin_unique p s h, removeCoin_unique p s h, h, Op.run_unique ops p h⟩,
   Op.run_unique ops Portfolio.zero List.nodup_nil⟩

/-- C5 at a concrete input: a portfolio holding BTCUSDT, and the sequence
add BTCUSDT, add ETHUSDT, add BTCUSDT, alarm, remove ETHUSDT. -/
theorem unique_symbols_invariant_witness :
    ((addCoin onlyBTC "BTCUSDT").1.UniqueSymbols ∧ (removeCoin onlyBTC "BTCUSDT").1.UniqueSymbols ∧
      (setAlarm onlyBTC "BTCUSDT" Float64.f2000).1.UniqueSymbols ∧
      (Op.run onlyBTC [.add "BTCUSDT", .add "ETHUSDT", .add "BTCUSDT",
        .alarm "ETHUSDT" Float64.f2000, .remove "ETHUSDT"]).UniqueSymbols) ∧
    (Op.run Portfolio.zero [.add "BTCUSDT", .add "ETHUSDT", .add "BTCUSDT",
        .alarm "ETHUSDT" Float64.f2000, .remove "ETHUSDT"]).symbols = ["BTCUSDT"] :=
  ⟨(unique_symbols_invariant onlyBTC "BTCUSDT" Float64.f2000 _).1 (by decide), by decide⟩

/-! ## setAlarm -/

theorem Finmap.keys_insert_eq (m : AlarmMap) (s : String) (x : Float64) :
    (m.insert s x).keys = Insert.insert s m.keys := by
  ext a
  simp [Finmap.mem_keys, Finmap.mem_insert]

/-- C6: after `setAlarm` the alarm map (also when it was nil before) maps the
symbol to the price, maps every other symbol to what it mapped to before, and
its number of entries is unchanged when the symbol already had a threshold and
one more otherwise; the coins and the timestamp are untouched. -/
theorem setAlarm_sets_threshold (p : Portfolio) (s : String) (x : Float64) :
    (setAlarm p s x).1.alarmLookup s = some x ∧
    (∀ t, t ≠ s → (setAlarm p s x).1.alarmLookup t = p.alarmLookup t) ∧
    (setAlarm p s x).1.alarmCount =
      (if (p.alarmLookup s).isSome then p.alarmCount else p.alarmCount + 1) ∧
    (setAlarm p s x).1.Alarms ≠ none ∧
    (setAlarm p s x).1.Coins = p.Coins ∧
    (setAlarm p s x).1.Timestamp = p.Timestamp ∧
    (setAlarm p s x).2 = [.alarmSet s x] := by
  obtain ⟨coins, ts, alarms⟩ := p
  cases alarms with
  | none =>
    refine ⟨?_, ?_, ?_, by simp [setAlarm], rfl, rfl, rfl⟩
    · simp [setAlarm, Portfolio.alarmLookup, Finmap.lookup_insert]
    · intro t ht
      simp [setAlarm, Portfolio.alarmLookup, Finmap.lookup_insert_of_ne _ ht]
    · simp [setAlarm, Portfolio.alarmLookup, Portfolio.alarmCount, Finmap.keys_insert_eq]
  | some m =>
    refine ⟨?_, ?_, ?_, by simp [setAlarm], rfl, rfl, rfl⟩
    · simp [setAlarm, Portfolio.alarmLookup, Finmap.lookup_insert]
    · intro t ht
      simp [setAlarm, Portfolio.alarmLookup, Finmap.lookup_insert_of_ne _ ht]
    · simp only [setAlarm, Portfolio.alarmLookup, Portfolio.alarmCount, Finmap.keys_insert_eq]
      by_cases hm : s ∈ m
      · have h1 : (m.lookup s).isSome = true := Finmap.lookup_isSome.2 hm
        rw [if_pos h1, Finset.card_insert_of_mem (Finmap.mem_keys.2 hm)]
      · have h1 : ¬ (m.lookup s).isSome = true := fun h => hm (Finmap.lookup_isSome.1 h)
        rw [if_neg h1, Finset.card_insert_of_not_mem (fun h => hm (Finmap.mem_keys.1 h))]

/-- C6 at concrete inputs: a first alarm on a nil map, then an overwrite. -/
theorem setAlarm_sets_threshold_witness :
    (setAlarm onlyBTC "ETHUSDT" Float64.f2000).1.alarmLookup "ETHUSDT" = some Float64.f2000 ∧
    (setAlarm onlyBTC "ETHUSDT" Float64.f2000).1.alarmCount = 1 ∧
    (setAlarm (setAlarm onlyBTC "ETHUSDT" Float64.f2000).1 "ETHUSDT" Float64.f2500).1.alarmCount
      = 1 :=
  ⟨(setAlarm_sets_threshold onlyBTC "ETHUSDT" Float64.f2000).1, by decide, by decide⟩

/-! ## checkAlarms -/

theorem checkAlarms.mem_loop (getCoinPrice : String → Except GoError Float64) (o : Output)
    (order : List (Sigma fun _ : String => Float64)) :
    o ∈ checkAlarms.loop getCoinPrice order ↔
      ∃ e ∈ order, o ∈ checkAlarms.body getCoinPrice e.1 e.2 := by
  induction order with
  | nil => simp [checkAlarms.loop]
  | cons e rest ih =>
    obtain ⟨s, t⟩ := e
    simp [checkAlarms.loop, ih]

theorem checkAlarms.loop_append (getCoinPrice : String → Except GoError Float64)
    (l₁ l₂ : List (Sigma fun _ : String => Float64)) :
    checkAlarms.loop getCoinPrice (l₁ ++ l₂) =
      checkAlarms.loop getCoinPrice l₁ ++ checkAlarms.loop getCoinPrice l₂ := by
  induction l₁ with
  | nil => simp [checkAlarms.loop]
  | cons e rest ih =>
    obtain ⟨s, t⟩ := e
    simp [checkAlarms.loop, ih]

theorem checkAlarms.alarm_mem_body (getCoinPrice : String → Except GoError Float64)
    (s s' : String) (t t' c : Float64) :
    Output.alarm s t c ∈ checkAlarms.body getCoinPrice s' t' ↔
      s' = s ∧ t' = t ∧ getCoinPrice s = .ok c ∧ c.ge t = true := by
  unfold checkAlarms.body
  constructor
  · intro h
    split at h
    · simp at h
    · rename_i c' hc
      split at h
      · rename_i hge
        simp only [List.mem_singleton, Output.alarm.injEq] at h
        obtain ⟨rfl, rfl, rfl⟩ := h
        exact ⟨rfl, rfl, hc, hge⟩
      · simp at h
  · rintro ⟨rfl, rfl, hc, hge⟩
    simp [hc, hge]

theorem Portfolio.mem_order_iff (p : Portfolio) (order : List (Sigma fun _ : String => Float64))
    (h : p.IterationOrder order) (s : String) (t : Float64) :
    (⟨s, t⟩ : Sigma fun _ : String => Float64) ∈ order ↔ p.alarmLookup s = some t := by
  have h1 : (⟨s, t⟩ : Sigma fun _ : String => Float64) ∈ order ↔
      (⟨s, t⟩ : Sigma fun _ : String => Float64) ∈ p.alarmEntries := by
    rw [← h]; exact Iff.rfl
  rw [h1]
  unfold Portfolio.alarmEntries Portfolio.alarmLookup
  cases p.Alarms with
  | none => simp
  | some m => exact Finmap.mem_lookup_iff.symm

/-- C7: with the price lookup an arbitrary function from symbols to a price or
an error, and for any order in which the alarm map is iterated, `checkAlarms`
prints an ALARM notice for a symbol exactly when the symbol has a threshold in
the alarm map, its lookup succeeds and the price is `>=` the threshold (the
notice carries that threshold and price); a symbol with a threshold whose
lookup fails gets an error report and no ALARM notice; and such a failure
does not stop the loop: the entries before and after it are evaluated as they
would be on their own. -/
theorem checkAlarms_triggers_iff (getCoinPrice : String → Except GoError Float64)
    (p : Portfolio) (order : List (Sigma fun _ : String => Float64))
    (h : p.IterationOrder order) :
    (∀ s t c, Output.alarm s t c ∈ checkAlarms getCoinPrice order ↔
      (p.alarmLookup s = some t ∧ getCoinPrice s = .ok c ∧ c.ge t = true)) ∧
    (∀ s t e, p.alarmLookup s = some t → getCoinPrice s = .error e →
      Output.fetchError s e ∈ checkAlarms getCoinPrice order ∧
      ∀ t' c, Output.alarm s t' c ∉ checkAlarms getCoinPrice order) ∧
    (∀ before s t after e, order = before ++ ⟨s, t⟩ :: after → getCoinPrice s = .error e →
      checkAlarms getCoinPrice order =
        checkAlarms getCoinPrice before ++ [.fetchError s e] ++
          checkAlarms getCoinPrice after) := by
  have key : ∀ s t c, Output.alarm s t c ∈ checkAlarms getCoinPrice order ↔
      (p.alarmLookup s = some t ∧ getCoinPrice s = .ok c ∧ c.ge t = true) := by
    intro s t c
    unfold checkAlarms
    rw [checkAlarms.mem_loop]
    constructor
    · rintro ⟨⟨s', t'⟩, he, hb⟩
      obtain ⟨rfl, rfl, hc, hge⟩ := (checkAlarms.alarm_mem_body getCoinPrice s s' t t' c).1 hb
      exact ⟨(p.mem_order_iff order h _ _).1 he, hc, hge⟩
    · rintro ⟨hl, hc, hge⟩
      exact ⟨⟨s, t⟩, (p.mem_order_iff order h s t).2 hl,
        (checkAlarms.alarm_mem_body getCoinPrice s s t t c).2 ⟨rfl, rfl, hc, hge⟩⟩
  refine ⟨key, ?_, ?_⟩
  · intro s t e hl he
    constructor
    · unfold checkAlarms
      rw [checkAlarms.mem_loop]
      exact ⟨⟨s, t⟩, (p.mem_order_iff order h s t).2 hl, by simp [checkAlarms.body, he]⟩
    · intro t' c hmem
      have := ((key s t' c).1 hmem).2.1
      rw [he] at this
      exact absurd this (by simp)
  · intro before s t after e ho he
    unfold checkAlarms
    rw [ho, checkAlarms.loop_append]
    simp [checkAlarms.loop, checkAlarms.body, he]

/-- C7 at concrete inputs: an alarm on ETHUSDT at 2000.0 triggers at the price
2500.0 and not at 1500.0; with alarms on ETHUSDT and BTCUSDT and a failing
lookup for ETHUSDT, the failure is reported and BTCUSDT still triggers. -/
theorem checkAlarms_triggers_iff_witness :
    Output.alarm "ETHUSDT" Float64.f2000 Float64.f2500 ∈
      checkAlarms (fun _ => .ok Float64.f2500) [⟨"ETHUSDT", Float64.f2000⟩] ∧
    checkAlarms (fun _ => .ok Float64.f1500) [⟨"ETHUSDT", Float64.f2000⟩] = [] ∧
    Output.fetchError "ETHUSDT" "network" ∈
      checkAlarms failingETH [⟨"ETHUSDT", Float64.f2000⟩, ⟨"BTCUSDT", Float64.f1500⟩] ∧
    Output.alarm "BTCUSDT" Float64.f1500 Float64.f2500 ∈
      checkAlarms failingETH [⟨"ETHUSDT", Float64.f2000⟩, ⟨"BTCUSDT", Float64.f1500⟩] :=
  ⟨((checkAlarms_triggers_iff (fun _ => .ok Float64.f2500) alarmETH
      [⟨"ETHUSDT", Float64.f2000⟩] (by decide)).1 _ _ _).2 ⟨by decide, rfl, by decide⟩,
   by decide,
   ((checkAlarms_triggers_iff failingETH alarmTwo
      [⟨"ETHUSDT", Float64.f2000⟩, ⟨"BTCUSDT", Float64.f1500⟩] (by decide)).2.1
      "ETHUSDT" Float64.f2000 "network" (by decide) (by simp [failingETH])).1,
   ((checkAlarms_triggers_iff failingETH alarmTwo
      [⟨"ETHUSDT", Float64.f2000⟩, ⟨"BTCUSDT", Float64.f1500⟩] (by decide)).1 _ _ _).2
      ⟨by decide, by simp [failingETH], by decide⟩⟩

/-! ## Store -/

/-- C8: `loadPortfolio` returns the empty portfolio (no coins, no alarms) and
no error when the read fails with a not-exist error; returns the error for
every other read failure; returns the decoder's error when the file was read
but does not decode; and it returns no error only in two cases: the file does
not exist (result: the empty portfolio) or the file was read and decoded
without error (result: the decoded record). -/
theorem loadPortfolio_not_found_only_default {FS Bytes : Type} (w : World FS Bytes) (fs : FS)
    (filename : String) :
    (∀ err, w.readFile fs filename = .error err → w.isNotExist err = true →
      loadPortfolio w fs filename = (Portfolio.zero, none)) ∧
    (Portfolio.zero.Coins = [] ∧ Portfolio.zero.alarmCount = 0 ∧
      ∀ s, Portfolio.zero.alarmLookup s = none) ∧
    (∀ err, w.readFile fs filename = .error err → w.isNotExist err = false →
      (loadPortfolio w fs filename).2 = some err) ∧
    (∀ file q err, w.readFile fs filename = .ok file →
      w.unmarshal file Portfolio.zero = (q, some err) →
      (loadPortfolio w fs filename).2 = some err) ∧
    ((loadPortfolio w fs filename).2 = none →
      (∃ err, w.readFile fs filename = .error err ∧ w.isNotExist err = true ∧
        loadPortfolio w fs filename = (Portfolio.zero, none)) ∨
      (∃ file q, w.readFile fs filename = .ok file ∧
        w.unmarshal file Portfolio.zero = (q, none) ∧
        loadPortfolio w fs filename = (q, none))) := by
  refine ⟨?_, ⟨rfl, rfl, fun _ => rfl⟩, ?_, ?_, ?_⟩
  · intro err hr hne
    simp [loadPortfolio, hr, hne]
  · intro err hr hne
    simp [loadPortfolio, hr, hne]
  · intro file q err hr hu
    simp [loadPortfolio, hr, hu]
  · intro h
    unfold loadPortfolio at h ⊢
    cases hr : w.readFile fs filename with
    | error err =>
      rw [hr] at h
      left
      cases hne : w.isNotExist err with
      | true => exact ⟨err, rfl, hne, by simp [hne]⟩
      | false => simp [hne] at h
    | ok file =>
      rw [hr] at h
      right
      rcases hu : w.unmarshal file Portfolio.zero with ⟨q, e⟩
      cases e with
      | none => exact ⟨file, q, rfl, hu, by simp [hu]⟩
      | some err => simp [hu] at h

/-- C8 at concrete inputs: a missing file, an unreadable file and a file with
malformed contents. -/
theorem loadPortfolio_not_found_only_default_witness :
    loadPortfolio refWorld [] "portfolio.json" = (Portfolio.zero, none) ∧
    (loadPortfolio deniedWorld [] "portfolio.json").2 = some "permission denied" ∧
    (loadPortfolio refWorld [("portfolio.json", .malformed)] "portfolio.json").2 =
      some "invalid character" :=
  ⟨(loadPortfolio_not_found_only_default refWorld [] "portfolio.json").1
      "no such file or directory" rfl (by decide),
   (loadPortfolio_not_found_only_default deniedWorld [] "portfolio.json").2.2.1
      "permission denied" rfl (by decide),
   (loadPortfolio_not_found_only_default refWorld [("portfolio.json", .malformed)]
      "portfolio.json").2.2.2.1 .malformed Portfolio.zero "invalid character" rfl rfl⟩


/-! ## encoding/json on a portfolio -/

/-- The encoder writes a finite float as a number. -/
theorem Json.encodeFloat_finite (x : Float64) (h : x.isFinite = true) :
    Json.encodeFloat x = .ok (.number x) := by
  simp only [Float64.isFinite, Bool.and_eq_true, Bool.not_eq_true'] at h
  simp [Json.encodeFloat, h.1, h.2]

theorem Json.encodeFloat_nan (x : Float64) (h : x.isNaN = true) :
    Json.encodeFloat x = .error "json: unsupported value: NaN" := by
  simp [Json.encodeFloat, h]

theorem Json.encodeCoins_finite (coins : List Coin)
    (h : ∀ c ∈ coins, c.Price.isFinite = true) :
    Json.encodeCoins coins = .ok (coins.map fun c =>
      Json.object [("symbol", .string c.Symbol), ("price", .number c.Price)]) := by
  induction coins with
  | nil => rfl
  | cons c rest ih =>
    have hc := Json.encodeFloat_finite c.Price (h c (List.mem_cons_self _ _))
    have hr := ih (fun d hd => h d (List.mem_cons_of_mem _ hd))
    simp [Json.encodeCoins, Json.encodeCoin, hc, hr]

theorem Json.foldName_symbol : Json.foldName "symbol" = some "symbol" := by decide

theorem Json.foldName_price : Json.foldName "price" = some "price" := by decide

theorem Json.foldName_coins : Json.foldName "coins" = some "coins" := by decide

theorem Json.foldName_timestamp : Json.foldName "timestamp" = some "timestamp" := by decide

theorem Json.foldName_alarms : Json.foldName "alarms" = some "alarms" := by decide

/-- The decoder reads back the coins the encoder wrote. -/
theorem Json.decodeCoins_encoded (coins : List Coin)
    (h : ∀ c ∈ coins, c.Price.isFinite = true) :
    Json.decodeCoins (coins.map fun c =>
      Json.object [("symbol", .string c.Symbol), ("price", .number c.Price)]) = some coins := by
  induction coins with
  | nil => rfl
  | cons c rest ih =>
    have hc := h c (List.mem_cons_self _ _)
    have hr := ih (fun d hd => h d (List.mem_cons_of_mem _ hd))
    simp [Json.decodeCoins, Json.decodeCoinMembers, Json.foldName_symbol, Json.foldName_price,
      hc, hr]

theorem Json.encodeAlarms_finite (entries : List (Sigma fun _ : String => Float64))
    (h : ∀ e ∈ entries, e.2.isFinite = true) :
    Json.encodeAlarms entries = .ok (entries.map fun e => (e.1, Json.number e.2)) := by
  induction entries with
  | nil => rfl
  | cons e rest ih =>
    obtain ⟨s, x⟩ := e
    have hc := Json.encodeFloat_finite x (h ⟨s, x⟩ (List.mem_cons_self _ _))
    have hr := ih (fun d hd => h d (List.mem_cons_of_mem _ hd))
    simp [Json.encodeAlarms, hc, hr]

theorem Json.decodeAlarms_encoded (entries : List (Sigma fun _ : String => Float64))
    (h : ∀ e ∈ entries, e.2.isFinite = true) :
    ∀ alarms : AlarmMap,
      Json.decodeAlarms (entries.map fun e => (e.1, Json.number e.2)) alarms =
        some (entries.foldl (fun m e => m.insert e.1 e.2) alarms) := by
  induction entries with
  | nil => intro alarms; rfl
  | cons e rest ih =>
    intro alarms
    obtain ⟨s, x⟩ := e
    have hc : x.isFinite = true := h ⟨s, x⟩ (List.mem_cons_self _ _)
    have hr := ih (fun d hd => h d (List.mem_cons_of_mem _ hd)) (alarms.insert s x)
    simp [Json.decodeAlarms, hc, hr]

theorem AlarmMap.foldl_insert_eq_toFinmap (entries : List (Sigma fun _ : String => Float64)) :
    entries.foldl (fun (m : AlarmMap) e => m.insert e.1 e.2) ∅ = entries.reverse.toFinmap := by
  induction entries using List.reverseRecOn with
  | nil => rfl
  | append_singleton rest e ih =>
    obtain ⟨s, x⟩ := e
    rw [List.foldl_append, List.reverse_append, ih]
    rfl

/-- Storing the entries of a map, each once and in any order, into an empty map
gives the map back. -/
theorem AlarmMap.foldl_insert_entries (m : AlarmMap)
    (entries : List (Sigma fun _ : String => Float64))
    (h : (entries : Multiset (Sigma fun _ : String => Float64)) = m.entries) :
    entries.foldl (fun (m : AlarmMap) e => m.insert e.1 e.2) ∅ = m := by
  rw [AlarmMap.foldl_insert_eq_toFinmap]
  induction m using Finmap.induction_on with
  | H a =>
    have hp : entries.Perm a.entries := Multiset.coe_eq_coe.1 h
    apply Finmap.ext_lookup
    intro k
    rw [Finmap.dlookup_list_toFinmap, Finmap.lookup_toFinmap]
    have hrev : entries.reverse.Perm a.entries := (List.reverse_perm entries).trans hp
    exact List.perm_dlookup k ((List.perm_nodupKeys hrev).2 a.nodupKeys) a.nodupKeys hrev

theorem Portfolio.sortedAlarms_finite (p : Portfolio)
    (h : ∀ s x, p.alarmLookup s = some x → x.isFinite = true) :
    ∀ e ∈ p.sortedAlarms, e.2.isFinite = true := by
  rintro ⟨s, x⟩ he
  exact h s x ((p.mem_order_iff p.sortedAlarms p.sortedAlarms_iterationOrder s x).1 he)

/-- The document written for a portfolio whose prices and thresholds are all
finite. -/
theorem Json.marshalIndent_finite (nilCoins : Bool) (p : Portfolio)
    (hcoins : ∀ c ∈ p.Coins, c.Price.isFinite = true)
    (halarms : ∀ s x, p.alarmLookup s = some x → x.isFinite = true) :
    Json.marshalIndent nilCoins p = .ok (.object
      [("coins", match p.Coins with
          | [] => if nilCoins then .null else .array []
          | c :: rest => .array ((c :: rest).map fun c =>
              Json.object [("symbol", .string c.Symbol), ("price", .number c.Price)])),
       ("timestamp", .time p.Timestamp),
       ("alarms", match p.Alarms with
          | none => .null
          | some _ => .object (p.sortedAlarms.map fun e => (e.1, Json.number e.2)))]) := by
  have h1 := Json.encodeCoins_finite p.Coins hcoins
  have h2 := Json.encodeAlarms_finite p.sortedAlarms (p.sortedAlarms_finite halarms)
  unfold Json.marshalIndent
  rw [h2]
  obtain ⟨coins, ts, alarms⟩ := p
  cases coins with
  | nil => cases alarms <;> rfl
  | cons c rest =>
    simp only [h1]
    cases alarms <;> rfl

/-- The decoder reads back what the encoder wrote: the same coins, the same
alarm map and the time that was written. -/
theorem Json.unmarshal_marshalIndent (nilCoins : Bool) (p : Portfolio) (data : Json)
    (hcoins : ∀ c ∈ p.Coins, c.Price.isFinite = true)
    (halarms : ∀ s x, p.alarmLookup s = some x → x.isFinite = true)
    (h : Json.marshalIndent nilCoins p = .ok data) : Json.unmarshal data = some p := by
  rw [Json.marshalIndent_finite nilCoins p hcoins halarms] at h
  have hd := (Except.ok.inj h).symm
  subst hd
  obtain ⟨coins, ts, alarms⟩ := p
  have hcs : ∀ l : List Coin, (∀ c ∈ l, c.Price.isFinite = true) →
      Json.decodeCoins (l.map fun c =>
        Json.object [("symbol", .string c.Symbol), ("price", .number c.Price)]) = some l :=
    Json.decodeCoins_encoded
  cases alarms with
  | none =>
    cases coins with
    | nil =>
      cases nilCoins <;> simp [Json.unmarshal, Json.decodePortfolioMembers, Json.foldName_coins,
        Json.foldName_timestamp, Json.foldName_alarms, Portfolio.zero, Json.decodeCoins]
    | cons c rest =>
      have hc := hcs (c :: rest) hcoins
      simp only [List.map_cons] at hc
      simp [Json.unmarshal, Json.decodePortfolioMembers, Json.foldName_coins,
        Json.foldName_timestamp, Json.foldName_alarms, Portfolio.zero, hc]
  | some m =>
    have hfin := Portfolio.sortedAlarms_finite ⟨coins, ts, some m⟩ halarms
    have hdec := Json.decodeAlarms_encoded _ hfin ∅
    have hm := AlarmMap.foldl_insert_entries m (Portfolio.sortedAlarms ⟨coins, ts, some m⟩)
      (Portfolio.sortedAlarms_iterationOrder ⟨coins, ts, some m⟩)
    rw [hm] at hdec
    cases coins with
    | nil =>
      cases nilCoins <;> simp [Json.unmarshal, Json.decodePortfolioMembers, Json.foldName_coins,
        Json.foldName_timestamp, Json.foldName_alarms, Portfolio.zero, Json.decodeCoins, hdec]
    | cons c rest =>
      have hc := hcs (c :: rest) hcoins
      simp only [List.map_cons] at hc
      simp [Json.unmarshal, Json.decodePortfolioMembers, Json.foldName_coins,
        Json.foldName_timestamp, Json.foldName_alarms, Portfolio.zero, hc, hdec]

theorem JsonFS.read_write (fs : JsonFS) (filename : String) (data : Json) :
    JsonFS.read (JsonFS.write fs filename data).1 filename = .ok data := by
  simp [JsonFS.read, JsonFS.write, List.lookup]

/-- C9, as the code has it: for a portfolio whose prices and alarm thresholds are
all finite (symbols and alarm keys are valid UTF-8 text, as every `String`
is), when the write of the encoded record succeeds on a file system where a
read returns what was last written, `savePortfolio` returns no error and
`loadPortfolio` of the same file then returns no error and the record that
was saved with only the timestamp replaced: the same coin sequence, in the
same order, and the same alarm mapping.  The codec is `encoding/json`, and an
empty coin slice may be nil or not. -/
theorem save_then_load_round_trip {FS : Type} (w : World FS Json) (nilCoins : Bool) (fs : FS)
    (filename : String) (p : Portfolio)
    (hcoins : ∀ c ∈ p.Coins, c.Price.isFinite = true)
    (halarms : ∀ s x, p.alarmLookup s = some x → x.isFinite = true)
    (hwrite : ∀ data, Json.marshalIndent nilCoins ⟨p.Coins, w.now, p.Alarms⟩ = .ok data →
      (w.writeFile fs filename data).2 = none)
    (hread : ∀ data fs1, w.writeFile fs filename data = (fs1, none) →
      w.readFile fs1 filename = .ok data) :
    (savePortfolio (w.withJson nilCoins) fs filename p).2 = none ∧
    loadPortfolio (w.withJson nilCoins)
        (savePortfolio (w.withJson nilCoins) fs filename p).1 filename =
      (⟨p.Coins, w.now, p.Alarms⟩, none) ∧
    (loadPortfolio (w.withJson nilCoins)
        (savePortfolio (w.withJson nilCoins) fs filename p).1 filename).1.Coins = p.Coins ∧
    (∀ s, (loadPortfolio (w.withJson nilCoins)
        (savePortfolio (w.withJson nilCoins) fs filename p).1 filename).1.alarmLookup s =
      p.alarmLookup s) := by
  have henc := Json.marshalIndent_finite nilCoins ⟨p.Coins, w.now, p.Alarms⟩ hcoins halarms
  generalize hdata : (Json.object _ : Json) = data at henc
  have hdec : Json.unmarshal data = some ⟨p.Coins, w.now, p.Alarms⟩ :=
    Json.unmarshal_marshalIndent nilCoins ⟨p.Coins, w.now, p.Alarms⟩ data hcoins halarms henc
  have hw := hwrite data henc
  have hs : savePortfolio (w.withJson nilCoins) fs filename p =
      w.writeFile fs filename data := by
    simp [savePortfolio, World.withJson, henc]
  have hwr : w.writeFile fs filename data = ((w.writeFile fs filename data).1, none) := by
    rw [← hw]
  have hr := hread data _ hwr
  have hl : loadPortfolio (w.withJson nilCoins) (w.writeFile fs filename data).1 filename =
      (⟨p.Coins, w.now, p.Alarms⟩, none) := by
    simp [loadPortfolio, World.withJson, hr, hdec]
  rw [hs, hl]
  exact ⟨hw, rfl, rfl, fun _ => rfl⟩

/-- C9 at a concrete input: a portfolio with two coins and two alarms saved to
an empty file system and loaded again. -/
theorem save_then_load_round_trip_witness :
    (savePortfolio jsonWorld [] "portfolio.json" coinsAndAlarms).2 = none ∧
    loadPortfolio jsonWorld (savePortfolio jsonWorld [] "portfolio.json" coinsAndAlarms).1
      "portfolio.json" = (⟨coinsAndAlarms.Coins, 1, coinsAndAlarms.Alarms⟩, none) :=
  have h := save_then_load_round_trip jsonBase true [] "portfolio.json" coinsAndAlarms
    (by decide)
    (fun s x hx => by
      have hmem := (coinsAndAlarms.mem_order_iff
        [⟨"ETHUSDT", Float64.f2000⟩, ⟨"BTCUSDT", Float64.f1500⟩] (by decide) s x).2 hx
      simp only [List.mem_cons, Sigma.mk.inj_iff, List.mem_nil_iff, or_false] at hmem
      rcases hmem with ⟨_, h2⟩ | ⟨_, h2⟩ <;> cases h2 <;> decide)
    (fun _ _ => rfl)
    (fun data fs1 hw => by
      have h1 : fs1 = (JsonFS.write [] "portfolio.json" data).1 := (congrArg Prod.fst hw).symm
      rw [h1]
      exact JsonFS.read_write [] "portfolio.json" data)
  ⟨h.1, h.2.1⟩

/-- C9 fails as stated: a portfolio whose coin has a NaN price cannot be
encoded, so `savePortfolio` returns the encoder's error and writes nothing,
and the following `loadPortfolio` finds no file and returns no coins. -/
theorem save_then_load_nan_counterexample :
    savePortfolio jsonWorld [] "portfolio.json" nanPortfolio =
      ([], some "json: unsupported value: NaN") ∧
    loadPortfolio jsonWorld (savePortfolio jsonWorld [] "portfolio.json" nanPortfolio).1
      "portfolio.json" = (Portfolio.zero, none) ∧
    ¬ ((loadPortfolio jsonWorld (savePortfolio jsonWorld [] "portfolio.json" nanPortfolio).1
      "portfolio.json").1.Coins = nanPortfolio.Coins) :=
  ⟨rfl, by decide, by decide⟩

/-! ## main -/

theorem savePortfolio_fs {FS Bytes : Type} (w : World FS Bytes) (fs : FS) (filename : String)
    (p : Portfolio) :
    (∀ err, w.marshalIndent ⟨p.Coins, w.now, p.Alarms⟩ = .error err →
      savePortfolio w fs filename p = (fs, some err)) ∧
    (∀ data, w.marshalIndent ⟨p.Coins, w.now, p.Alarms⟩ = .ok data →
      savePortfolio w fs filename p = w.writeFile fs filename data) := by
  constructor
  · intro err h
    simp [savePortfolio, h]
  · intro data h
    simp [savePortfolio, h]

/-- C10: one run of `main` leaves the file system as it found it unless the
command is `save`: for every argument vector whose command (`os.Args[1]`) is
not `save`, or is missing, the file system at exit is the file system at
start, whatever the arguments, the loaded portfolio and the outputs are.  A
`save` run changes the file system only by the one write of `savePortfolio`
to `portfolio.json`, and what it encodes is the portfolio loaded at startup
with only the timestamp replaced: nothing is written when the load fails or
when the encoding fails. -/
theorem main_writes_only_on_save {FS Bytes : Type} (w : World FS Bytes) (fs : FS)
    (args : List String) :
    (args.getD 1 "" ≠ "save" → (Cot.main w fs args).1 = fs) ∧
    (args.length < 2 → (Cot.main w fs args).1 = fs) ∧
    (args.getD 1 "" = "save" →
      ((loadPortfolio w fs "portfolio.json").2 ≠ none → (Cot.main w fs args).1 = fs) ∧
      ((loadPortfolio w fs "portfolio.json").2 = none →
        (∀ err, w.marshalIndent ⟨(loadPortfolio w fs "portfolio.json").1.Coins, w.now,
            (loadPortfolio w fs "portfolio.json").1.Alarms⟩ = .error err →
          (Cot.main w fs args).1 = fs) ∧
        (∀ data, w.marshalIndent ⟨(loadPortfolio w fs "portfolio.json").1.Coins, w.now,
            (loadPortfolio w fs "portfolio.json").1.Alarms⟩ = .ok data →
          (Cot.main w fs args).1 = (w.writeFile fs "portfolio.json" data).1))) := by
  have hnosave : args.getD 1 "" ≠ "save" → (Cot.main w fs args).1 = fs := by
    intro hc
    unfold Cot.main
    rcases hl : loadPortfolio w fs "portfolio.json" with ⟨p, e⟩
    cases e with
    | some err => rfl
    | none =>
      simp only
      split
      · rfl
      · split
        · split <;> rfl
        · rfl
        · split <;> rfl
        · split
          · rfl
          · split <;> rfl
        · exact absurd (by assumption) hc
        · rfl
        · rfl
        · rfl
  refine ⟨hnosave, ?_, ?_⟩
  · intro hlen
    apply hnosave
    have : args.getD 1 "" = "" := by
      rw [List.getD_eq_default]
      omega
    rw [this]
    decide
  · intro hc
    have hlen : ¬ args.length < 2 := by
      intro hlen
      have : args.getD 1 "" = "" := by
        rw [List.getD_eq_default]
        omega
      rw [this] at hc
      exact absurd hc (by decide)
    rcases hl : loadPortfolio w fs "portfolio.json" with ⟨p, e⟩
    cases e with
    | some err =>
      refine ⟨fun _ => ?_, fun h => absurd h (by simp)⟩
      simp [Cot.main, hl]
    | none =>
      refine ⟨fun h => absurd rfl h, fun _ => ⟨?_, ?_⟩⟩
      · intro err henc
        have hs := (savePortfolio_fs w fs "portfolio.json" p).1 err henc
        simp only [Cot.main, hl, hlen, hc, hs, if_false]
      · intro data henc
        have hs := (savePortfolio_fs w fs "portfolio.json" p).2 data henc
        simp only [Cot.main, hl, hlen, hc, hs, if_false]
        rcases hwf : w.writeFile fs "portfolio.json" data with ⟨fs1, e1⟩
        cases e1 <;> rfl

/-- C10 at concrete inputs, on a file system whose `portfolio.json` holds the
coin BTCUSDT: `add ethusdt` prints the added message and leaves the file as
it was; `save` writes the loaded coins with the new timestamp. -/
theorem main_writes_only_on_save_witness :
    (Cot.main refWorld fsOnlyBTC ["cot", "add", "ethusdt"]).1 = fsOnlyBTC ∧
    (Cot.main refWorld fsOnlyBTC ["cot", "add", "ethusdt"]).2 =
      [.println "Coin added successfully."] ∧
    (Cot.main refWorld fsOnlyBTC ["cot", "alarm", "ethusdt", "oops"]).1 = fsOnlyBTC ∧
    (Cot.main refWorld fsOnlyBTC ["cot"]).1 = fsOnlyBTC ∧
    (Cot.main refWorld fsOnlyBTC ["cot", "save"]).1 =
      [("portfolio.json", .record ⟨onlyBTC.Coins, 1, onlyBTC.Alarms⟩)] :=
  ⟨(main_writes_only_on_save refWorld fsOnlyBTC ["cot", "add", "ethusdt"]).1 (by decide),
   by decide,
   (main_writes_only_on_save refWorld fsOnlyBTC ["cot", "alarm", "ethusdt", "oops"]).1
     (by decide),
   (main_writes_only_on_save refWorld fsOnlyBTC ["cot"]).2.1 (by decide),
   ((main_writes_only_on_save refWorld fsOnlyBTC ["cot", "save"]).2.2 rfl).2 rfl |>.2
     (.record ⟨onlyBTC.Coins, 1, onlyBTC.Alarms⟩) rfl⟩
